import Mathlib

/-!
Verification development for the neuralmonkey recurrent decoder and
multi-source attention combination (files
`neuralmonkey/decoders/decoder.py` and
`neuralmonkey/encoders/encoder_wrapper.py`).

The tensor-level numeric operations (RNN cells, linear projections,
embedding lookups, dropout) are opaque parameters of the model: the
development embeds the control structure, token selection, finished/mask
bookkeeping, accumulator writes and the attention combination data flow,
which is what the claims are about.  The batch dimension is represented
by functions out of `Fin B`; time-major tensors are lists of such
functions.  `tf.TensorArray` is embedded as a list together with the
`taWrite` operation (a dynamic-size array write; every write in the
embedded code happens at the current length, i.e. is an append).
-/

namespace NeuralMonkey

/-- Modelled from the spec: the designated end-of-sequence token index,
imported by the decoder from the vocabulary module
(`neuralmonkey/vocabulary.py`, which is not among the repository files
here).  The spec only requires a fixed designated index (with index 0
reserved for padding); the concrete value is irrelevant to every claim. -/
def END_TOKEN_INDEX : Nat := 2

/-- Embedding of a `tf.TensorArray` write with `dynamic_size=True`:
writing at an index below the current size overwrites, writing at or
beyond the current size grows the array (slots that were never written
hold the pad value `dflt`). -/
def taWrite {α : Type} (dflt : α) (ta : List α) (i : Nat) (v : α) : List α :=
  if i < ta.length then ta.set i v
  else ta ++ List.replicate (i - ta.length) dflt ++ [v]

/-- Embedding of `tf.argmax` on one row of scores: the smallest index
holding the maximal value (0 on the empty row, which cannot arise from
a real logits tensor). -/
def argmaxIdx : List ℚ → Nat
  | [] => 0
  | [_] => 0
  | x :: y :: ys =>
    let r := argmaxIdx (y :: ys)
    if x < (y :: ys).getD r 0 then r + 1 else 0

/-- Embedding of `tf.reduce_all` over the batch of finished flags. -/
def allFinished {B : Nat} (f : Fin B → Bool) : Bool :=
  decide (∀ b, f b = true)

/-!
Flat attention combination (`FlatMultiAttention` in
`encoder_wrapper.py`).  The operations `tf.nn.softmax`,
elementwise multiplication by the mask, `tf.reduce_sum` along axis 1 and
the division are all per-row (per batch element) computations, so they
are embedded on a single row: `logits` and `mask` are the row of that
batch element.  The exponential inside the softmax is an opaque
parameter `e` (the claims only use its positivity).
-/

/-- Epsilon added to the normalization denominator in
`FlatMultiAttention._renorm_softmax` (the literal `1e-8`). -/
def EPS : ℚ := 1 / 100000000

/-- Row softmax, `tf.nn.softmax` on one row, with the exponential
abstracted as `e`. -/
def softmaxRow (e : ℚ → ℚ) (l : List ℚ) : List ℚ :=
  l.map (fun x => e x / (l.map e).sum)

/-- Embedding of `FlatMultiAttention._renorm_softmax` on one row:
softmax of the logits, multiplied elementwise by the concatenated mask,
divided by the row sum plus `EPS`. -/
def renorm_softmax (e : ℚ → ℚ) (mask : List ℚ) (logits : List ℚ) : List ℚ :=
  let softmax_concat := List.zipWith (· * ·) (softmaxRow e logits) mask
  let norm := softmax_concat.sum + EPS
  softmax_concat.map (· / norm)

/-- Sum of the entries of `att` at the positions the 0/1 row `mask`
marks valid (each entry weighted by its mask value). -/
def maskedSum (mask att : List ℚ) : ℚ :=
  (List.zipWith (· * ·) mask att).sum

/-- Embedding of the concatenated mask built in
`FlatMultiAttention.__init__`: the encoder masks (one row each), with a
constant-one column appended for the sentinel slot when sentinels are
enabled, concatenated along the position axis. -/
def flat_masks_concat (encoder_masks : List (List ℚ)) (use_sentinels : Bool) :
    List ℚ :=
  (if use_sentinels then encoder_masks ++ [[1]] else encoder_masks).flatten

/-!
The recurrent decoder (`Decoder` in `decoder.py`).

Type parameters: `B` is the batch size; `ρ` is the type of one batch of
recurrent state / output vectors (a `[batch, rnn_size]` tensor); `ι` is
the type of one batch of step-input representations (a
`[batch, embedding_size]` tensor); `γ` is the type of one batch of
attention context vectors; `ω` is the type of one attention object loop
state.  Logit tensors are represented concretely as `Fin B → List ℚ`
(one row of vocabulary scores per batch element) because the decoder
inspects them (argmax).
-/

namespace Decoder

/-- The two recognized recurrent cells, the keys of `RNN_CELL_TYPES`. -/
inductive RnnCell
  | GRU
  | LSTM
deriving DecidableEq

/-- The slice of an attention object the decoder's loop consumes:
its `attention` step function (arguments: decoder state, previous
decoder output, step input, the attention loop state, the step index),
its initial loop state, and the zero context tensor
`tf.zeros([batch_size, a.attn_size])` used to seed `prev_contexts`. -/
structure AttObj (ρ ι γ ω : Type) where
  attention : ρ → ρ → ι → ω → Nat → γ × ω
  initial_loop_state : ω
  zero_context : γ

/-- Parameters of one decoder unroll: the configuration flags consumed
by the loop together with the opaque tensor-level operations
(embedding lookup with dropout, input projection, the recurrent cells,
the conditional GRU cell, the attention output projection and the
dropout-protected logit projection).  The placeholder feeds
(`go_symbols`, `train_inputs`, `train_padding`) are included as data. -/
structure DecoderParams (B : Nat) (ρ ι γ ω : Type) where
  max_output_len : Nat
  vocab_size : Nat
  rnn_cell : RnnCell
  conditional_gru : Bool
  attention_on_input : Bool
  go_symbols : Fin B → Nat
  train_inputs : List (Fin B → Nat)
  train_padding : List (Fin B → ℚ)
  initial_state : ρ
  embed : (Fin B → Nat) → ι
  combineInput : ι → List γ → ι
  cellGRU : ι → ρ → ρ × ρ
  cellLSTM : ι → ρ × ρ → ρ × (ρ × ρ)
  cellCond : List γ → ρ → ρ × ρ
  outputProj : ρ → List γ → ρ
  logit_fn : ρ → Fin B → List ℚ
  att_objects : List (AttObj ρ ι γ ω)

/-- Embedding of the `LoopState` named tuple threaded through the
decoding loop (`decoder.py`, lines 31-43).  The three `tf.TensorArray`
fields are lists; the `train_inputs` reference is carried unchanged. -/
structure LoopState (B : Nat) (ρ γ ω : Type) where
  step : Nat
  input_symbol : Fin B → Nat
  train_inputs : List (Fin B → Nat)
  prev_rnn_state : ρ
  prev_rnn_output : ρ
  rnn_outputs : List ρ
  prev_logits : Fin B → List ℚ
  logits : List (Fin B → List ℚ)
  prev_contexts : List γ
  mask : List (Fin B → Bool)
  finished : Fin B → Bool
  attention_loop_states : List ω

variable {B : Nat} {ρ ι γ ω : Type}

/-- Embedding of `Decoder.get_initial_loop_state`: step 0, the start
symbols as input, the initial state seeded into the recurrent-output
array at index 0, empty logit and mask arrays, zero previous logits,
zero contexts, all-false finished flags and the attention objects'
initial loop states. -/
def get_initial_loop_state (P : DecoderParams B ρ ι γ ω) :
    LoopState B ρ γ ω :=
  { step := 0
    input_symbol := P.go_symbols
    train_inputs := P.train_inputs
    prev_rnn_state := P.initial_state
    prev_rnn_output := P.initial_state
    rnn_outputs := taWrite P.initial_state [] 0 P.initial_state
    prev_logits := fun _ => List.replicate P.vocab_size 0
    logits := []
    prev_contexts := P.att_objects.map (fun a => a.zero_context)
    mask := []
    finished := fun _ => false
    attention_loop_states := P.att_objects.map (fun a => a.initial_loop_state) }

/-- Embedding of `Decoder.input_projection`: either
`input_plus_attention` (embedding of the current input symbol merged
with the previous attention contexts) or `embed_input_symbol`,
selected by the `attention_on_input` flag. -/
def rnn_input (P : DecoderParams B ρ ι γ ω) (ls : LoopState B ρ γ ω) : ι :=
  if P.attention_on_input then
    P.combineInput (P.embed ls.input_symbol) ls.prev_contexts
  else
    P.embed ls.input_symbol

/-- Embedding of the cell/attention block of `Decoder.get_body`
(lines 459-497): run the recurrent cell on the step input and the
previous state, query each attention object with the new cell output,
the previous recurrent output, the step input and its own loop state,
and, for a conditional GRU, refine the cell output with a second cell
fed on the concatenated contexts (note `next_state` is bound to the
first cell's state before the conditional update, exactly as in the
source).  Returns (cell output, next state, contexts, attention loop
states); the two list components map `Prod.fst` / `Prod.snd` over the
zipped attention results, which is the source's
`zip(*attns)`-with-empty-guard. -/
def rnn_block (P : DecoderParams B ρ ι γ ω) (ls : LoopState B ρ γ ω) :
    ρ × ρ × List γ × List ω :=
  match P.rnn_cell with
  | RnnCell.GRU =>
    let co_state := P.cellGRU (rnn_input P ls) ls.prev_rnn_output
    let cell_output := co_state.1
    let state := co_state.2
    let next_state := state
    let attns := List.zipWith
      (fun a s => a.attention cell_output ls.prev_rnn_output
        (rnn_input P ls) s ls.step)
      P.att_objects ls.attention_loop_states
    let contexts := attns.map Prod.fst
    let att_loop_states := attns.map Prod.snd
    if P.conditional_gru then
      let co2 := P.cellCond contexts state
      (co2.1, next_state, contexts, att_loop_states)
    else
      (cell_output, next_state, contexts, att_loop_states)
  | RnnCell.LSTM =>
    let prev_state := (ls.prev_rnn_state, ls.prev_rnn_output)
    let co_state := P.cellLSTM (rnn_input P ls) prev_state
    let cell_output := co_state.1
    let state := co_state.2
    let next_state := state.1
    let attns := List.zipWith
      (fun a s => a.attention cell_output ls.prev_rnn_output
        (rnn_input P ls) s ls.step)
      P.att_objects ls.attention_loop_states
    let contexts := attns.map Prod.fst
    let att_loop_states := attns.map Prod.snd
    (cell_output, next_state, contexts, att_loop_states)

/-- Embedding of the output projection block of `Decoder.get_body`
(lines 499-506): with attentions, project the cell output together
with the contexts; without, the cell output passes through and the
attention loop state list is reset to `[]`.  Returns (output,
attention loop states). -/
def step_output (P : DecoderParams B ρ ι γ ω) (ls : LoopState B ρ γ ω) :
    ρ × List ω :=
  let r := rnn_block P ls
  if r.2.2.1.isEmpty then (r.1, [])
  else (P.outputProj r.1 r.2.2.1, r.2.2.2)

/-- Logits computed by one step of the body:
`logits = self._logit_function(output)` (line 508). -/
def step_logits (P : DecoderParams B ρ ι γ ω) (ls : LoopState B ρ γ ω) :
    Fin B → List ℚ :=
  P.logit_fn (step_output P ls).1

/-- Embedding of the next-input selection of `Decoder.get_body`
(lines 512-515): the reference symbol at the current step under
teacher forcing, the argmax of the just-computed logits otherwise. -/
def next_symbols (P : DecoderParams B ρ ι γ ω) (train_mode : Bool)
    (ls : LoopState B ρ γ ω) : Fin B → Nat :=
  if train_mode then ls.train_inputs.getD ls.step (fun _ => 0)
  else fun b => argmaxIdx (step_logits P ls b)

/-- Embedding of the finished-flag update of `Decoder.get_body`
(lines 516-518): previously finished, or the newly selected symbol
equals the end token index. -/
def has_finished (P : DecoderParams B ρ ι γ ω) (train_mode : Bool)
    (ls : LoopState B ρ γ ω) : Fin B → Bool :=
  fun b => ls.finished b
    || decide (next_symbols P train_mode ls b = END_TOKEN_INDEX)

/-- Embedding of the loop body built by `Decoder.get_body`
(lines 451-537): one decoding step producing the next `LoopState`.
The recurrent output is written at index `step + 1`, the logits and
the mask entry (the negation of the updated finished flag) at index
`step`. -/
def get_body (P : DecoderParams B ρ ι γ ω) [Inhabited ρ]
    (train_mode : Bool) (ls : LoopState B ρ γ ω) : LoopState B ρ γ ω :=
  { step := ls.step + 1
    input_symbol := next_symbols P train_mode ls
    train_inputs := ls.train_inputs
    prev_rnn_state := (rnn_block P ls).2.1
    prev_rnn_output := (rnn_block P ls).1
    rnn_outputs := taWrite default ls.rnn_outputs (ls.step + 1)
      (rnn_block P ls).1
    prev_logits := step_logits P ls
    logits := taWrite default ls.logits ls.step (step_logits P ls)
    prev_contexts := (rnn_block P ls).2.2.1
    mask := taWrite default ls.mask ls.step
      (fun b => !(has_finished P train_mode ls b))
    finished := has_finished P train_mode ls
    attention_loop_states := (step_output P ls).2 }

/-- Embedding of `Decoder.loop_exit_criterion` (which, as the source
comment notes, is in fact the continuation condition): NOT all batch
elements finished AND the step index is below the maximum output
length. -/
def loop_exit_criterion (P : DecoderParams B ρ ι γ ω)
    (ls : LoopState B ρ γ ω) : Bool :=
  (!(allFinished ls.finished)) && decide (ls.step < P.max_output_len)

/-- Fuel-indexed unfolding of `tf.while_loop(cond, body, init)`: the
condition is evaluated before each step.  `runLoop` with fuel at least
`max_output_len + 1` computes the loop's true fixpoint because every
body step increments `step` and the condition forces
`step < max_output_len` (proved below). -/
def runLoop (P : DecoderParams B ρ ι γ ω) [Inhabited ρ]
    (train_mode : Bool) : Nat → LoopState B ρ γ ω → LoopState B ρ γ ω
  | 0, ls => ls
  | n + 1, ls =>
    if loop_exit_criterion P ls then
      runLoop P train_mode n (get_body P train_mode ls)
    else ls

/-- Final loop state of `Decoder._decoding_loop`'s `tf.while_loop`. -/
def finalState (P : DecoderParams B ρ ι γ ω) [Inhabited ρ]
    (train_mode : Bool) : LoopState B ρ γ ω :=
  runLoop P train_mode (P.max_output_len + 1) (get_initial_loop_state P)

/-- Number of executed loop iterations of one unroll (the final step
index; the initial step index is 0 and each iteration adds 1). -/
def stepsRun (P : DecoderParams B ρ ι γ ω) [Inhabited ρ]
    (train_mode : Bool) : Nat :=
  (finalState P train_mode).step

/-- Embedding of `Decoder._decoding_loop`'s result: the stacked
logits, recurrent outputs and mask (stacking a fully written
`tf.TensorArray` is the identity on the embedded list). -/
def decoding_loop (P : DecoderParams B ρ ι γ ω) [Inhabited ρ]
    (train_mode : Bool) :
    List (Fin B → List ℚ) × List ρ × List (Fin B → Bool) :=
  let final := finalState P train_mode
  (final.logits, final.rnn_outputs, final.mask)

/-- Embedding of `Decoder.runtime_logits`: the logits of the
free-running (`train_mode=False`) unroll. -/
def runtime_logits (P : DecoderParams B ρ ι γ ω) [Inhabited ρ] :
    List (Fin B → List ℚ) :=
  (decoding_loop P false).1

/-- Embedding of `Decoder.decoded`:
`tf.argmax(self.runtime_logits[:, :, 1:], -1) + 1` — per step and
batch element, the argmax over the logits with vocabulary index 0
sliced away, shifted back by one into true id space. -/
def decoded (P : DecoderParams B ρ ι γ ω) [Inhabited ρ] :
    List (Fin B → Nat) :=
  (runtime_logits P).map (fun row b => argmaxIdx ((row b).drop 1) + 1)

/-- Transpose of a time-major tensor (a list of per-batch rows) into
its batch-major view, `tf.transpose` on the first two axes. -/
def transposeTM {α : Type} (l : List (Fin B → α)) : Fin B → List α :=
  fun b => l.map (fun f => f b)

/-- Arguments handed to `tf.contrib.seq2seq.sequence_loss` by
`Decoder.runtime_loss` (batch-major, per batch element one time
sequence each). -/
structure SequenceLossArgs (B : Nat) where
  logits : Fin B → List (List ℚ)
  targets : Fin B → List Nat
  weights : Fin B → List ℚ

/-- Embedding of the argument computation of `Decoder.runtime_loss`
(lines 341-354): the targets and padding are the (transposed,
batch-major) teacher-forcing feeds, the logits are the (transposed)
free-running logits, and all three are cropped on the time axis to
`min_time`, the minimum of the reference time dimension and the
free-running time dimension.  (`tf.shape(x)[1]` of the transposed
tensors is the length of the underlying time-major list.) -/
def runtime_loss_call (P : DecoderParams B ρ ι γ ω) [Inhabited ρ] :
    SequenceLossArgs B :=
  let train_targets := transposeTM P.train_inputs
  let batch_major_logits := transposeTM (runtime_logits P)
  let min_time := min P.train_inputs.length (runtime_logits P).length
  { logits := fun b => (batch_major_logits b).take min_time
    targets := fun b => (train_targets b).take min_time
    weights := fun b => (transposeTM P.train_padding b).take min_time }

/-- Which construction-time error `Decoder.__init__` raises:
`missingEmbeddingSize` is the `ValueError` of lines 125-129 (no
embedding size and no embeddings source), `rnnSizeAssertionFailed` is
the failure of `assert self.rnn_size is not None` (line 154), and
`unknownRnnCell` is the `ValueError` of lines 156-157 (the cell name
is not a key of `RNN_CELL_TYPES`). -/
inductive InitError
  | missingEmbeddingSize
  | rnnSizeAssertionFailed
  | unknownRnnCell
deriving DecidableEq

/-- The constructor arguments of `Decoder.__init__` that its
validation logic reads.  `encoders` lists the encoders' encoded-state
sizes (`e.encoded.get_shape()[1].value`); `embeddings_source` is the
reused embedding matrix's second dimension when a source is given;
`encoder_projection` and `output_projection` record whether a callable
was supplied. -/
structure InitArgs where
  encoders : List Nat
  rnn_size : Option Nat
  embedding_size : Option Nat
  embeddings_source : Option Nat
  encoder_projection : Bool
  output_projection : Bool
  rnn_cell : String

/-- The fields of a successfully constructed decoder that the
validation logic determines. -/
structure InitConfig where
  embedding_size : Nat
  rnn_size : Nat
  rnn_cell : RnnCell
deriving DecidableEq

/-- Embedding of the validation sequence of `Decoder.__init__`
(lines 125-161): raise when neither an embedding size nor an
embeddings source is given; override the embedding size with the
source's dimension when a source is given (the override only logs a
warning); resolve the encoder projection defaults, which set
`rnn_size` to the sum of encoder sizes in the concatenation case;
assert that `rnn_size` is known; raise when the recurrent cell name is
not `GRU` or `LSTM`.  An error means no decoder instance is
produced. -/
def decoder_init (a : InitArgs) : Except InitError InitConfig :=
  if a.embedding_size.isNone && a.embeddings_source.isNone then
    Except.error InitError.missingEmbeddingSize
  else
    let embedding_size :=
      match a.embeddings_source with
      | some s => s
      | none => a.embedding_size.getD 0
    let rnn_size_resolved :=
      if !a.encoder_projection then
        if a.encoders.isEmpty then a.rnn_size
        else if a.rnn_size.isNone then some (a.encoders.foldl (· + ·) 0)
        else a.rnn_size
      else a.rnn_size
    match rnn_size_resolved with
    | none => Except.error InitError.rnnSizeAssertionFailed
    | some rnn_size =>
      if a.rnn_cell = "GRU" then
        Except.ok { embedding_size, rnn_size, rnn_cell := RnnCell.GRU }
      else if a.rnn_cell = "LSTM" then
        Except.ok { embedding_size, rnn_size, rnn_cell := RnnCell.LSTM }
      else Except.error InitError.unknownRnnCell

end Decoder

/-!
Hierarchical attention combination (`HierarchicalMultiAttention` in
`encoder_wrapper.py`).  `δ` is the type of decoder state / input batch
tensors, `γ` the type of attention-space vector batch tensors (child
context vectors, projected contexts, sentinel values), `ω` the type of
one child attention loop state.  The numeric primitives (state
projection, the tanh scoring `_vector_logit` keyed by its scope
string, the `_sentinel` gate, the per-encoder context reprojections,
the softmax over the combination logits and the weighted sum) are
opaque parameters.
-/

/-- Embedding of the `AttentionLoopState` accumulator: per-step
histories of context vectors and of attention weight rows. -/
structure AttentionLoopState (γ : Type) where
  contexts : List γ
  weights : List (List ℚ)

/-- Embedding of `HierarchicalLoopState`: the child attention loop
states plus the top-level combination attention's own loop state. -/
structure HierarchicalLoopState (γ ω : Type) where
  child_loop_states : List ω
  loop_state : AttentionLoopState γ

/-- One `HierarchicalMultiAttention` object: the wrapped encoders'
names (used as projection scopes), their attention step functions, the
sentinel and projection-sharing flags, and the opaque numeric
primitives of the combination stage. -/
structure HierAttModel (δ γ ω : Type) where
  encoders : List String
  attn_objs : List (δ → δ → δ → ω → Nat → γ × ω)
  use_sentinels : Bool
  share_projections : Bool
  projectState : δ → γ
  vectorLogit : String → γ → γ → γ × ℚ
  sentinelValue : δ → δ → δ → γ
  projAttn : String → γ → γ
  softmaxDistr : List ℚ → List ℚ
  combine : List ℚ → List γ → γ

variable {δ γ ω : Type}

/-- Embedding of the child attention calls at the start of
`HierarchicalMultiAttention.attention` (lines 380-384): each wrapped
encoder's attention object is queried with the decoder state, the
previous decoder state, the decoder input, its own child loop state
and the step index; the first components are the per-encoder child
context vectors. -/
def hier_child_results (H : HierAttModel δ γ ω)
    (decoder_state decoder_prev_state decoder_input : δ)
    (loop_state : HierarchicalLoopState γ ω) (step : Nat) : List (γ × ω) :=
  List.zipWith
    (fun a ls => a decoder_state decoder_prev_state decoder_input ls step)
    H.attn_objs loop_state.child_loop_states

/-- The per-encoder child context vectors computed by one hierarchical
attention step. -/
def hier_child_contexts (H : HierAttModel δ γ ω)
    (decoder_state decoder_prev_state decoder_input : δ)
    (loop_state : HierarchicalLoopState γ ω) (step : Nat) : List γ :=
  (hier_child_results H decoder_state decoder_prev_state decoder_input
    loop_state step).map Prod.fst

/-- Embedding of `HierarchicalMultiAttention.attention`
(lines 368-433): compute the child context vectors, score each with
`_vector_logit` under the encoder's scope, optionally append the
sentinel value's projection and logit, softmax the combination logits,
pick the output contexts (the logit-stage projections when
projections are shared, otherwise fresh per-encoder reprojections plus
the reprojected sentinel), combine them into the final context and
record the context and weight row at the step index. -/
def hier_attention (H : HierAttModel δ γ ω) [Inhabited γ]
    (decoder_state decoder_prev_state decoder_input : δ)
    (loop_state : HierarchicalLoopState γ ω) (step : Nat) :
    γ × HierarchicalLoopState γ ω :=
  let projected_state := H.projectState decoder_state
  let childResults := hier_child_results H decoder_state decoder_prev_state
    decoder_input loop_state step
  let attn_ctx_vectors := childResults.map Prod.fst
  let child_loop_states := childResults.map Prod.snd
  let pcl := List.zipWith
    (fun cv enc => H.vectorLogit enc projected_state cv)
    attn_ctx_vectors H.encoders
  let base_proj_ctxs := pcl.map Prod.fst
  let base_attn_logits := pcl.map Prod.snd
  let sentinel_value :=
    if H.use_sentinels then
      some (H.sentinelValue decoder_state decoder_prev_state decoder_input)
    else none
  let proj_ctxs :=
    match sentinel_value with
    | some sv => base_proj_ctxs ++ [(H.vectorLogit "sentinel" projected_state sv).1]
    | none => base_proj_ctxs
  let attn_logits :=
    match sentinel_value with
    | some sv => base_attn_logits ++ [(H.vectorLogit "sentinel" projected_state sv).2]
    | none => base_attn_logits
  let attention_distr := H.softmaxDistr attn_logits
  let output_cxts :=
    if H.share_projections then proj_ctxs
    else
      let oc := List.zipWith (fun cv enc => H.projAttn enc cv)
        attn_ctx_vectors H.encoders
      match sentinel_value with
      | some sv => oc ++ [H.projAttn "proj_sentinel" sv]
      | none => oc
  let context := H.combine attention_distr output_cxts
  let prev_loop_state := loop_state.loop_state
  let next_loop_state : AttentionLoopState γ :=
    { contexts := taWrite default prev_loop_state.contexts step context
      weights := taWrite default prev_loop_state.weights step attention_distr }
  (context,
   { child_loop_states := child_loop_states, loop_state := next_loop_state })

/-!
Concrete instances used to evaluate the embedded code on explicit
inputs (witnesses and failing inputs).
-/

/-- Loop bookkeeping invariant of one unroll: the recurrent-output
array holds `step + 1` entries (the seeded initial state plus one per
executed step), the logit and mask arrays hold `step` entries each,
and every recorded logit row is an output of the logit projection. -/
def LoopInv {B : Nat} {ρ ι γ ω : Type} (P : Decoder.DecoderParams B ρ ι γ ω)
    (ls : Decoder.LoopState B ρ γ ω) : Prop :=
  ls.rnn_outputs.length = ls.step + 1 ∧
  ls.logits.length = ls.step ∧
  ls.mask.length = ls.step ∧
  ∀ row ∈ ls.logits, ∃ r, row = P.logit_fn r

/-- A tiny concrete decoder: batch size 1, vocabulary size 4, maximum
output length 2, GRU cell, no attention, with a logit projection that
constantly scores vocabulary index 2 (the end token) highest, and a
reference sequence whose first symbol is the end token. -/
def exParams : Decoder.DecoderParams 1 Unit Unit Unit Unit :=
  { max_output_len := 2
    vocab_size := 4
    rnn_cell := Decoder.RnnCell.GRU
    conditional_gru := false
    attention_on_input := true
    go_symbols := fun _ => 1
    train_inputs := [fun _ => 2]
    train_padding := [fun _ => 1]
    initial_state := ()
    embed := fun _ => ()
    combineInput := fun _ _ => ()
    cellGRU := fun _ _ => ((), ())
    cellLSTM := fun _ _ => ((), ((), ()))
    cellCond := fun _ _ => ((), ())
    outputProj := fun _ _ => ()
    logit_fn := fun _ _ => [0, 0, 1, 0]
    att_objects := [] }

/-- A positive exponential-like function for the flat-attention
counterexample: 1 on nonpositive scores, 10^20 on positive ones
(mimicking the magnitude gap of a real exponential between logit 0 and
logit 100). -/
def cexExp : ℚ → ℚ := fun x => if x ≤ 0 then 1 else 10 ^ 20

/-- Counterexample logits row for the flat attention: a masked-out
position with a much larger score than the only valid position. -/
def cexLogits : List ℚ := [0, 100]

/-- Counterexample mask row: position 0 valid, position 1 masked. -/
def cexMask : List ℚ := [1, 0]

/-- Constant-one stand-in for the exponential, used by witnesses. -/
def oneExp : ℚ → ℚ := fun _ => 1

/-!
Helper lemmas.
-/

theorem taWrite_at_length {α : Type} (dflt : α) (ta : List α) (v : α) :
    taWrite dflt ta ta.length v = ta ++ [v] := by
  simp [taWrite]

theorem taWrite_eq_append {α : Type} (dflt v : α) (ta : List α) (i : Nat)
    (h : ta.length = i) : taWrite dflt ta i v = ta ++ [v] := by
  subst h
  exact taWrite_at_length dflt ta v

theorem taWrite_length_succ {α : Type} (dflt v : α) (ta : List α) (i : Nat)
    (h : ta.length = i) : (taWrite dflt ta i v).length = i + 1 := by
  rw [taWrite_eq_append dflt v ta i h]
  simp [h]

theorem argmaxIdx_lt_length : ∀ l : List ℚ, l ≠ [] → argmaxIdx l < l.length
  | [_], _ => by simp [argmaxIdx]
  | x :: y :: ys, _ => by
    have ih := argmaxIdx_lt_length (y :: ys) (by simp)
    simp only [argmaxIdx]
    split
    · exact Nat.succ_lt_succ ih
    · simp

theorem allFinished_iff {B : Nat} (f : Fin B → Bool) :
    allFinished f = true ↔ ∀ b, f b = true := by
  simp [allFinished]

namespace Decoder

variable {B : Nat} {ρ ι γ ω : Type}

theorem loop_exit_criterion_iff (P : DecoderParams B ρ ι γ ω)
    (ls : LoopState B ρ γ ω) :
    loop_exit_criterion P ls = true ↔
      (¬ ∀ b, ls.finished b = true) ∧ ls.step < P.max_output_len := by
  simp [loop_exit_criterion, allFinished]

theorem get_body_step (P : DecoderParams B ρ ι γ ω) [Inhabited ρ]
    (tm : Bool) (ls : LoopState B ρ γ ω) :
    (get_body P tm ls).step = ls.step + 1 := rfl

theorem get_body_finished (P : DecoderParams B ρ ι γ ω) [Inhabited ρ]
    (tm : Bool) (ls : LoopState B ρ γ ω) (b : Fin B) :
    (get_body P tm ls).finished b =
      (ls.finished b || decide (next_symbols P tm ls b = END_TOKEN_INDEX)) := rfl

/-- Once the continuation condition fails it fails forever: the
finished flags are monotone (each step only ORs into them) and the
step index only grows. -/
theorem cond_false_stable (P : DecoderParams B ρ ι γ ω) [Inhabited ρ]
    (tm : Bool) (ls : LoopState B ρ γ ω)
    (h : loop_exit_criterion P ls = false) :
    loop_exit_criterion P (get_body P tm ls) = false := by
  rw [← Bool.not_eq_true, loop_exit_criterion_iff] at h ⊢
  rw [not_and_or] at h ⊢
  rcases h with h | h
  · left
    rw [not_not] at h ⊢
    intro b
    rw [get_body_finished, h b, Bool.true_or]
  · right
    rw [get_body_step]
    omega

theorem iterate_body_step (P : DecoderParams B ρ ι γ ω) [Inhabited ρ]
    (tm : Bool) (ls : LoopState B ρ γ ω) :
    ∀ k, ((get_body P tm)^[k] ls).step = ls.step + k := by
  intro k
  induction k with
  | zero => simp
  | succ k ih =>
    rw [Function.iterate_succ_apply', get_body_step, ih]
    omega

theorem cond_false_iterate (P : DecoderParams B ρ ι γ ω) [Inhabited ρ]
    (tm : Bool) (ls : LoopState B ρ γ ω)
    (h : loop_exit_criterion P ls = false) :
    ∀ k, loop_exit_criterion P ((get_body P tm)^[k] ls) = false := by
  intro k
  induction k with
  | zero => simpa using h
  | succ k ih =>
    rw [Function.iterate_succ_apply']
    exact cond_false_stable P tm _ ih

/-- With enough fuel, `runLoop` computes the while loop's fixpoint: it
equals the `k`-fold body iterate for the unique `k` at which the
continuation condition first fails. -/
theorem runLoop_spec (P : DecoderParams B ρ ι γ ω) [Inhabited ρ]
    (tm : Bool) :
    ∀ n (ls : LoopState B ρ γ ω), P.max_output_len - ls.step < n →
      ∃ k, runLoop P tm n ls = (get_body P tm)^[k] ls ∧
        (∀ j, j < k → loop_exit_criterion P ((get_body P tm)^[j] ls) = true) ∧
        loop_exit_criterion P ((get_body P tm)^[k] ls) = false := by
  intro n
  induction n with
  | zero => omega
  | succ n ih =>
    intro ls hfuel
    by_cases hc : loop_exit_criterion P ls = true
    · have hstep : ls.step < P.max_output_len :=
        ((loop_exit_criterion_iff P ls).mp hc).2
      have hfuel' : P.max_output_len - (get_body P tm ls).step < n := by
        rw [get_body_step]; omega
      obtain ⟨k, hrun, hbefore, hstop⟩ := ih (get_body P tm ls) hfuel'
      refine ⟨k + 1, ?_, ?_, ?_⟩
      · rw [runLoop, if_pos hc, hrun, Function.iterate_succ_apply]
      · intro j hj
        cases j with
        | zero => simpa using hc
        | succ j =>
          rw [Function.iterate_succ_apply]
          exact hbefore j (by omega)
      · rw [Function.iterate_succ_apply]
        exact hstop
    · rw [Bool.not_eq_true] at hc
      refine ⟨0, ?_, by omega, by simpa using hc⟩
      rw [runLoop, if_neg (by simp [hc]), Function.iterate_zero_apply]

theorem LoopInv_init (P : DecoderParams B ρ ι γ ω) :
    LoopInv P (get_initial_loop_state P) := by
  refine ⟨?_, rfl, rfl, by simp [get_initial_loop_state]⟩
  simp [get_initial_loop_state, taWrite]

theorem LoopInv_body (P : DecoderParams B ρ ι γ ω) [Inhabited ρ]
    (tm : Bool) (ls : LoopState B ρ γ ω) (h : LoopInv P ls) :
    LoopInv P (get_body P tm ls) := by
  obtain ⟨hr, hl, hm, hrows⟩ := h
  refine ⟨?_, ?_, ?_, ?_⟩
  · show (taWrite default ls.rnn_outputs (ls.step + 1) (rnn_block P ls).1).length
      = (get_body P tm ls).step + 1
    rw [get_body_step]
    exact taWrite_length_succ _ _ _ _ hr
  · show (taWrite default ls.logits ls.step (step_logits P ls)).length
      = (get_body P tm ls).step
    rw [get_body_step]
    exact taWrite_length_succ _ _ _ _ hl
  · show (taWrite default ls.mask ls.step
        (fun b => !(has_finished P tm ls b))).length = (get_body P tm ls).step
    rw [get_body_step]
    exact taWrite_length_succ _ _ _ _ hm
  · show ∀ row ∈ taWrite default ls.logits ls.step (step_logits P ls), _
    rw [taWrite_eq_append _ _ _ _ hl]
    intro row hrow
    rcases List.mem_append.mp hrow with hold | hnew
    · exact hrows row hold
    · exact ⟨(step_output P ls).1, by simpa [step_logits] using hnew⟩

theorem LoopInv_runLoop (P : DecoderParams B ρ ι γ ω) [Inhabited ρ]
    (tm : Bool) :
    ∀ n (ls : LoopState B ρ γ ω), LoopInv P ls →
      LoopInv P (runLoop P tm n ls) := by
  intro n
  induction n with
  | zero => intro ls h; exact h
  | succ n ih =>
    intro ls h
    rw [runLoop]
    split
    · exact ih _ (LoopInv_body P tm ls h)
    · exact h

theorem LoopInv_final (P : DecoderParams B ρ ι γ ω) [Inhabited ρ]
    (tm : Bool) : LoopInv P (finalState P tm) :=
  LoopInv_runLoop P tm _ _ (LoopInv_init P)

/-- The final loop state is the `stepsRun`-fold body iterate of the
initial state, the continuation condition holds at every earlier
iterate and fails at the final one. -/
theorem stepsRun_spec (P : DecoderParams B ρ ι γ ω) [Inhabited ρ]
    (tm : Bool) :
    finalState P tm
      = (get_body P tm)^[stepsRun P tm] (get_initial_loop_state P)
    ∧ (∀ j, j < stepsRun P tm →
        loop_exit_criterion P
          ((get_body P tm)^[j] (get_initial_loop_state P)) = true)
    ∧ loop_exit_criterion P (finalState P tm) = false := by
  obtain ⟨k, hrun, hbefore, hstop⟩ :=
    runLoop_spec P tm (P.max_output_len + 1) (get_initial_loop_state P)
      (by omega)
  have hk : stepsRun P tm = k := by
    show (finalState P tm).step = k
    show (runLoop P tm (P.max_output_len + 1) (get_initial_loop_state P)).step = k
    rw [hrun, iterate_body_step]
    simp [get_initial_loop_state]
  rw [hk]
  refine ⟨hrun, hbefore, ?_⟩
  show loop_exit_criterion P
    (runLoop P tm (P.max_output_len + 1) (get_initial_loop_state P)) = false
  rw [hrun]
  exact hstop

theorem cond_iterate_decide (P : DecoderParams B ρ ι γ ω) [Inhabited ρ]
    (tm : Bool) (k : Nat) :
    loop_exit_criterion P ((get_body P tm)^[k] (get_initial_loop_state P))
      = decide (k < stepsRun P tm) := by
  obtain ⟨hfin, hbefore, hstop⟩ := stepsRun_spec P tm
  by_cases hklt : k < stepsRun P tm
  · rw [hbefore k hklt]
    simp [hklt]
  · have hT : loop_exit_criterion P
        ((get_body P tm)^[stepsRun P tm] (get_initial_loop_state P)) = false := by
      rw [← hfin]
      exact hstop
    have h2 : (get_body P tm)^[k] (get_initial_loop_state P)
        = (get_body P tm)^[k - stepsRun P tm]
            ((get_body P tm)^[stepsRun P tm] (get_initial_loop_state P)) := by
      rw [← Function.iterate_add_apply]
      congr 1
      omega
    rw [h2, cond_false_iterate P tm _ hT]
    simp [hklt]

theorem stepsRun_le (P : DecoderParams B ρ ι γ ω) [Inhabited ρ]
    (tm : Bool) : stepsRun P tm ≤ P.max_output_len := by
  obtain ⟨hfin, hbefore, hstop⟩ := stepsRun_spec P tm
  by_cases h0 : stepsRun P tm = 0
  · omega
  · have hlast := hbefore (stepsRun P tm - 1) (by omega)
    have hlt := ((loop_exit_criterion_iff P _).mp hlast).2
    rw [iterate_body_step] at hlt
    simp only [get_initial_loop_state] at hlt
    omega

/-- C2: the decoding loop's continuation condition, evaluated before
each step, is exactly NOT (all batch elements finished) AND
(step < max_output_len); the unroll is the exact iterate of the body
up to the first step at which that condition fails, so it halts
exactly when every batch element has finished or `max_output_len`
steps have executed, whichever comes first. -/
theorem c2_loop_halts_exactly (P : DecoderParams B ρ ι γ ω) [Inhabited ρ]
    (tm : Bool) :
    (∀ ls : LoopState B ρ γ ω, loop_exit_criterion P ls
        = (!(allFinished ls.finished) && decide (ls.step < P.max_output_len)))
    ∧ loop_exit_criterion P (finalState P tm) = false
    ∧ finalState P tm
        = (get_body P tm)^[stepsRun P tm] (get_initial_loop_state P)
    ∧ (∀ k, loop_exit_criterion P
          ((get_body P tm)^[k] (get_initial_loop_state P))
        = decide (k < stepsRun P tm))
    ∧ (allFinished (finalState P tm).finished = true
        ∨ stepsRun P tm = P.max_output_len)
    ∧ stepsRun P tm ≤ P.max_output_len := by
  obtain ⟨hfin, _, hstop⟩ := stepsRun_spec P tm
  refine ⟨fun ls => rfl, hstop, hfin, cond_iterate_decide P tm, ?_,
    stepsRun_le P tm⟩
  have h := hstop
  rw [← Bool.not_eq_true, loop_exit_criterion_iff, not_and_or, not_not] at h
  rcases h with h | h
  · left
    exact (allFinished_iff _).mpr h
  · right
    have hle := stepsRun_le P tm
    have hst : (finalState P tm).step = stepsRun P tm := rfl
    omega

/-- C3: at every step, the next input token is the reference target at
the current step index in teacher-forced mode and the argmax of the
just-computed logits in free-running mode, and the updated finished
flag is (previous finished OR chosen token = end-of-sequence index). -/
theorem c3_next_input_and_finished (P : DecoderParams B ρ ι γ ω)
    [Inhabited ρ] (tm : Bool) (ls : LoopState B ρ γ ω) :
    ((get_body P tm ls).input_symbol = next_symbols P tm ls)
    ∧ next_symbols P true ls = ls.train_inputs.getD ls.step (fun _ => 0)
    ∧ next_symbols P false ls = (fun b => argmaxIdx (step_logits P ls b))
    ∧ ∀ b, (get_body P tm ls).finished b
        = (ls.finished b
            || decide (next_symbols P tm ls b = END_TOKEN_INDEX)) :=
  ⟨rfl, rfl, rfl, fun _ => rfl⟩

/-- C10: after a loop of `stepsRun` executed steps the stacked
recurrent-output history has `stepsRun + 1` entries while the stacked
logits and mask histories have `stepsRun` entries each, so the
returned rnn-outputs tensor is one time step longer than the returned
logits and mask tensors. -/
theorem c10_history_lengths (P : DecoderParams B ρ ι γ ω) [Inhabited ρ]
    (tm : Bool) :
    (finalState P tm).rnn_outputs.length = stepsRun P tm + 1
    ∧ (finalState P tm).logits.length = stepsRun P tm
    ∧ (finalState P tm).mask.length = stepsRun P tm
    ∧ (decoding_loop P tm).2.1.length = (decoding_loop P tm).1.length + 1
    ∧ (decoding_loop P tm).2.2.length = (decoding_loop P tm).1.length := by
  obtain ⟨hr, hl, hm, _⟩ := LoopInv_final P tm
  exact ⟨hr, hl, hm, by simp only [decoding_loop]; rw [hr, hl],
    by simp only [decoding_loop]; rw [hm, hl]⟩

/-- C1 (evaluation at the failing input): in the tiny concrete decoder
the free-running unroll emits the end token at step 0 and runs exactly
one step, yet the accumulated mask entry for that very step is 0 — the
mask excludes the step that emits the end token (the source marks this
with the comment `TODO mask should include also the end symbol`),
while the claim requires a 1 there; the mask length stays within
`max_output_len`. -/
theorem c1_mask_excludes_end_step :
    (finalState exParams false).input_symbol 0 = END_TOKEN_INDEX
    ∧ ((finalState exParams false).mask.map (fun f => f 0)) = [false]
    ∧ stepsRun exParams false = 1
    ∧ (finalState exParams false).mask.length ≤ exParams.max_output_len := by
  decide

/-- C5: every decoded token id is the argmax of a runtime logits row
restricted to vocabulary indices 1 and above, shifted back by one, so
it lies in `[1, vocab_size)` — inside the vocabulary and never the
reserved padding index 0 (assuming the vocabulary holds at least the
reserved and the end token, and the logit projection produces
vocabulary-sized rows). -/
theorem c5_decoded_range (P : DecoderParams B ρ ι γ ω) [Inhabited ρ]
    (hv : 2 ≤ P.vocab_size)
    (hrows : ∀ r b, (P.logit_fn r b).length = P.vocab_size)
    (row : Fin B → Nat) (hrow : row ∈ decoded P) (b : Fin B) :
    1 ≤ row b ∧ row b < P.vocab_size ∧ row b ≠ 0 := by
  obtain ⟨lr, hlr, rfl⟩ := List.mem_map.mp hrow
  obtain ⟨_, _, _, hrowsinv⟩ := LoopInv_final P false
  have hmem : lr ∈ (finalState P false).logits := hlr
  obtain ⟨r, rfl⟩ := hrowsinv lr hmem
  show 1 ≤ argmaxIdx ((P.logit_fn r b).drop 1) + 1
    ∧ argmaxIdx ((P.logit_fn r b).drop 1) + 1 < P.vocab_size
    ∧ argmaxIdx ((P.logit_fn r b).drop 1) + 1 ≠ 0
  have hlen : ((P.logit_fn r b).drop 1).length = P.vocab_size - 1 := by
    rw [List.length_drop, hrows r b]
  have hne : (P.logit_fn r b).drop 1 ≠ [] := by
    intro hnil
    rw [hnil] at hlen
    simp only [List.length_nil] at hlen
    omega
  have harg := argmaxIdx_lt_length _ hne
  rw [hlen] at harg
  omega

theorem c5_decoded_range_witness :
    1 ≤ ((decoded exParams).get ⟨0, by decide⟩) 0
    ∧ ((decoded exParams).get ⟨0, by decide⟩) 0 < exParams.vocab_size
    ∧ ((decoded exParams).get ⟨0, by decide⟩) 0 ≠ 0 :=
  c5_decoded_range exParams (by decide) (fun _ _ => rfl)
    ((decoded exParams).get ⟨0, by decide⟩) (List.get_mem _ _ _) 0

/-- C6: the tensors handed to the runtime (inference) loss are the
teacher-forced targets, the free-running logits and the reference
padding, all cropped on the time axis to exactly
`min(reference length, free-running length)`: each is precisely the
`take` of its source (the shorter side truncates; no padding is
appended to either side). -/
theorem c6_runtime_loss_truncation (P : DecoderParams B ρ ι γ ω)
    [Inhabited ρ]
    (hpad : P.train_padding.length = P.train_inputs.length) (b : Fin B) :
    ((runtime_loss_call P).logits b).length
        = min P.train_inputs.length (runtime_logits P).length
    ∧ ((runtime_loss_call P).targets b).length
        = min P.train_inputs.length (runtime_logits P).length
    ∧ ((runtime_loss_call P).weights b).length
        = min P.train_inputs.length (runtime_logits P).length
    ∧ (runtime_loss_call P).logits b
        = (transposeTM (runtime_logits P) b).take
            (min P.train_inputs.length (runtime_logits P).length)
    ∧ (runtime_loss_call P).targets b
        = (transposeTM P.train_inputs b).take
            (min P.train_inputs.length (runtime_logits P).length)
    ∧ (runtime_loss_call P).weights b
        = (transposeTM P.train_padding b).take
            (min P.train_inputs.length (runtime_logits P).length) := by
  refine ⟨?_, ?_, ?_, rfl, rfl, rfl⟩
  · show ((transposeTM (runtime_logits P) b).take
      (min P.train_inputs.length (runtime_logits P).length)).length = _
    simp only [List.length_take, transposeTM, List.length_map]
    omega
  · show ((transposeTM P.train_inputs b).take
      (min P.train_inputs.length (runtime_logits P).length)).length = _
    simp only [List.length_take, transposeTM, List.length_map]
    omega
  · show ((transposeTM P.train_padding b).take
      (min P.train_inputs.length (runtime_logits P).length)).length = _
    simp only [List.length_take, transposeTM, List.length_map]
    omega

theorem c6_runtime_loss_truncation_witness :
    ((runtime_loss_call exParams).logits 0).length
        = min exParams.train_inputs.length (runtime_logits exParams).length
    ∧ ((runtime_loss_call exParams).targets 0).length
        = min exParams.train_inputs.length (runtime_logits exParams).length
    ∧ ((runtime_loss_call exParams).weights 0).length
        = min exParams.train_inputs.length (runtime_logits exParams).length
    ∧ (runtime_loss_call exParams).logits 0
        = (transposeTM (runtime_logits exParams) 0).take
            (min exParams.train_inputs.length (runtime_logits exParams).length)
    ∧ (runtime_loss_call exParams).targets 0
        = (transposeTM exParams.train_inputs 0).take
            (min exParams.train_inputs.length (runtime_logits exParams).length)
    ∧ (runtime_loss_call exParams).weights 0
        = (transposeTM exParams.train_padding 0).take
            (min exParams.train_inputs.length (runtime_logits exParams).length) :=
  c6_runtime_loss_truncation exParams rfl 0

/-- C8: decoder construction fails immediately — producing no decoder
configuration — when the embedding size is absent and no shared
embeddings source is given (the `ValueError` of lines 125-129), and
whenever the recurrent-cell name is neither GRU nor LSTM no `ok`
result is possible (some error is raised on every path, the
cell-name `ValueError` of lines 156-157 in particular). -/
theorem c8_construction_validation (a : InitArgs) :
    (a.embedding_size = none → a.embeddings_source = none →
      decoder_init a = Except.error InitError.missingEmbeddingSize)
    ∧ (a.rnn_cell ≠ "GRU" → a.rnn_cell ≠ "LSTM" →
      ∀ cfg, decoder_init a ≠ Except.ok cfg) := by
  constructor
  · intro h1 h2
    simp [decoder_init, h1, h2]
  · intro hG hL cfg
    simp only [decoder_init]
    split
    · simp
    · split <;> simp [hG, hL]

end Decoder

/-!
Flat and hierarchical attention lemmas and claims.
-/

theorem sum_map_div (l : List ℚ) (c : ℚ) :
    (l.map (· / c)).sum = l.sum / c := by
  induction l with
  | nil => simp
  | cons x xs ih => simp [ih, add_div]

theorem zipWith_mul_nonneg :
    ∀ s m : List ℚ, (∀ x ∈ s, 0 ≤ x) → (∀ x ∈ m, 0 ≤ x) →
      ∀ x ∈ List.zipWith (· * ·) s m, 0 ≤ x
  | [], _, _, _ => by simp
  | _ :: _, [], _, _ => by simp
  | a :: as, b :: bs, hs, hm => by
    intro x hx
    rcases List.mem_cons.mp hx with h | h
    · subst h
      exact mul_nonneg (hs a (by simp)) (hm b (by simp))
    · exact zipWith_mul_nonneg as bs
        (fun y hy => hs y (by simp [hy])) (fun y hy => hm y (by simp [hy]))
        x h

theorem softmaxRow_nonneg (e : ℚ → ℚ) (he : ∀ x, 0 < e x) (l : List ℚ) :
    ∀ x ∈ softmaxRow e l, 0 ≤ x := by
  intro x hx
  obtain ⟨y, hy, rfl⟩ := List.mem_map.mp hx
  have hne : l.map e ≠ [] := by
    intro h
    rw [List.map_eq_nil_iff] at h
    subst h
    simp at hy
  have hpos : 0 < (l.map e).sum :=
    List.sum_pos _ (fun z hz => by
      obtain ⟨w, _, rfl⟩ := List.mem_map.mp hz
      exact he w) hne
  exact le_of_lt (div_pos (he y) hpos)

/-- C4 (amended): the flat attention's renormalized distribution
equals softmax(logits) times the 0/1 mask divided by (row sum + eps);
masked positions contribute exactly 0; the denominator is at least
eps, so the computation never divides by zero, all-zero masks
included; the total mass is S / (S + eps) where S is the softmax mass
surviving the mask; and it is within eps of 1 whenever S ≥ 1 - eps
(in particular for an all-ones mask) — but not in general, see the
counterexample. -/
theorem c4_renorm_softmax_renormalization (e : ℚ → ℚ) (mask logits : List ℚ)
    (he : ∀ x, 0 < e x) (hmask : ∀ x ∈ mask, x = 0 ∨ x = 1) :
    (renorm_softmax e mask logits
        = (List.zipWith (· * ·) (softmaxRow e logits) mask).map
            (· / ((List.zipWith (· * ·) (softmaxRow e logits) mask).sum + EPS)))
    ∧ (∀ i, mask.getD i 0 = 0 → (renorm_softmax e mask logits).getD i 0 = 0)
    ∧ EPS ≤ (List.zipWith (· * ·) (softmaxRow e logits) mask).sum + EPS
    ∧ 0 < (List.zipWith (· * ·) (softmaxRow e logits) mask).sum + EPS
    ∧ (renorm_softmax e mask logits).sum
        = (List.zipWith (· * ·) (softmaxRow e logits) mask).sum
          / ((List.zipWith (· * ·) (softmaxRow e logits) mask).sum + EPS)
    ∧ (1 - EPS ≤ (List.zipWith (· * ·) (softmaxRow e logits) mask).sum →
        |1 - (renorm_softmax e mask logits).sum| ≤ EPS) := by
  have hmask0 : ∀ x ∈ mask, (0:ℚ) ≤ x := by
    intro x hx
    rcases hmask x hx with h | h <;> simp [h]
  have hS0 : 0 ≤ (List.zipWith (· * ·) (softmaxRow e logits) mask).sum :=
    List.sum_nonneg
      (zipWith_mul_nonneg _ _ (softmaxRow_nonneg e he logits) hmask0)
  have hepos : (0:ℚ) < EPS := by norm_num [EPS]
  have hnorm : 0 < (List.zipWith (· * ·) (softmaxRow e logits) mask).sum + EPS := by
    linarith
  have hsum : (renorm_softmax e mask logits).sum
      = (List.zipWith (· * ·) (softmaxRow e logits) mask).sum
        / ((List.zipWith (· * ·) (softmaxRow e logits) mask).sum + EPS) :=
    sum_map_div _ _
  refine ⟨rfl, ?_, by linarith, hnorm, hsum, ?_⟩
  · intro i hi
    by_cases hlt :
        i < (List.zipWith (· * ·) (softmaxRow e logits) mask).length
    · have hmlt : i < mask.length := by
        rw [List.length_zipWith] at hlt
        omega
      have hmaski : mask[i] = 0 := by
        rw [← List.getD_eq_getElem mask 0 hmlt]
        exact hi
      show (((List.zipWith (· * ·) (softmaxRow e logits) mask).map
        (· / ((List.zipWith (· * ·) (softmaxRow e logits) mask).sum + EPS))).getD i 0) = 0
      rw [List.getD_eq_getElem _ 0 (by simpa using hlt), List.getElem_map,
        List.getElem_zipWith, hmaski]
      simp
    · show (((List.zipWith (· * ·) (softmaxRow e logits) mask).map
        (· / ((List.zipWith (· * ·) (softmaxRow e logits) mask).sum + EPS))).getD i 0) = 0
      rw [List.getD_eq_default]
      rw [List.length_map]
      omega
  · intro hge
    rw [hsum]
    set S := (List.zipWith (· * ·) (softmaxRow e logits) mask).sum with hSdef
    have hne0 : S + EPS ≠ 0 := ne_of_gt hnorm
    have hle1 : S / (S + EPS) ≤ 1 := by
      rw [div_le_one hnorm]
      linarith
    have h3 : 1 - S / (S + EPS) = EPS / (S + EPS) := by
      field_simp
    have h2 : EPS / (S + EPS) ≤ EPS := by
      rw [div_le_iff₀ hnorm]
      nlinarith
    rw [abs_of_nonneg (by linarith), h3]
    exact h2

/-- C4 (counterexample): when a masked-out position carries nearly all
of the softmax mass, the renormalized weights over the valid positions
sum to far less than 1: with a positive exponential stand-in, a 0/1
mask of matching length and a valid position whose softmax mass is
about 10^-20, the valid mass of the renormalized row differs from 1 by
far more than epsilon, refuting the claim that the weights over valid
positions always sum to 1 within epsilon. -/
theorem c4_valid_mass_not_near_one :
    (∀ x, 0 < cexExp x)
    ∧ (∀ x ∈ cexMask, x = 0 ∨ x = 1)
    ∧ cexMask.length = cexLogits.length
    ∧ ¬ (|1 - maskedSum cexMask (renorm_softmax cexExp cexMask cexLogits)|
          ≤ EPS) := by
  refine ⟨?_, ?_, rfl, ?_⟩
  · intro x
    unfold cexExp
    split <;> norm_num
  · intro x hx
    rcases List.mem_cons.mp hx with h | h
    · right; simpa using h
    · left; simpa using h
  · norm_num [maskedSum, renorm_softmax, softmaxRow, EPS, cexExp, cexLogits,
      cexMask]
    rw [abs_of_pos (by norm_num)]
    norm_num

theorem c4_renorm_softmax_renormalization_witness :
    (renorm_softmax oneExp [1, 1] [0, 0]
        = (List.zipWith (· * ·) (softmaxRow oneExp [0, 0]) [1, 1]).map
            (· / ((List.zipWith (· * ·) (softmaxRow oneExp [0, 0]) [1, 1]).sum + EPS)))
    ∧ (∀ i, List.getD ([1, 1] : List ℚ) i 0 = 0 →
        (renorm_softmax oneExp [1, 1] [0, 0]).getD i 0 = 0)
    ∧ EPS ≤ (List.zipWith (· * ·) (softmaxRow oneExp [0, 0]) [1, 1]).sum + EPS
    ∧ 0 < (List.zipWith (· * ·) (softmaxRow oneExp [0, 0]) [1, 1]).sum + EPS
    ∧ (renorm_softmax oneExp [1, 1] [0, 0]).sum
        = (List.zipWith (· * ·) (softmaxRow oneExp [0, 0]) [1, 1]).sum
          / ((List.zipWith (· * ·) (softmaxRow oneExp [0, 0]) [1, 1]).sum + EPS)
    ∧ (1 - EPS ≤ (List.zipWith (· * ·) (softmaxRow oneExp [0, 0]) [1, 1]).sum →
        |1 - (renorm_softmax oneExp [1, 1] [0, 0]).sum| ≤ EPS) :=
  c4_renorm_softmax_renormalization oneExp [1, 1] [0, 0]
    (fun x => by norm_num [oneExp])
    (by
      intro x hx
      rcases List.mem_cons.mp hx with h | h
      · right; simpa using h
      · right; simpa using h)

/-- C9: with the sentinel mechanism enabled the concatenated flat
attention mask carries a constant 1 in its last (sentinel) slot, so
the sentinel candidate is never masked out, and the renormalized
distribution keeps strictly positive total mass for every
(nonnegative, in particular all-zero) combination of encoder masks
whose concatenation the logits row matches in length. -/
theorem c9_sentinel_slot_unmasked (e : ℚ → ℚ)
    (encoder_masks : List (List ℚ)) (logits : List ℚ)
    (he : ∀ x, 0 < e x)
    (hm : ∀ m ∈ encoder_masks, ∀ x ∈ m, 0 ≤ x)
    (hlen : logits.length = (flat_masks_concat encoder_masks true).length) :
    (flat_masks_concat encoder_masks true).getLast? = some 1
    ∧ 0 < (renorm_softmax e (flat_masks_concat encoder_masks true)
            logits).sum := by
  have hflat : flat_masks_concat encoder_masks true
      = encoder_masks.flatten ++ [1] := by
    simp [flat_masks_concat]
  have hlen' : logits.length = encoder_masks.flatten.length + 1 := by
    rw [hlen, hflat]
    simp
  have hne : logits ≠ [] := by
    intro h
    rw [h] at hlen'
    simp at hlen'
  constructor
  · rw [hflat]
    exact List.getLast?_concat _
  have hexpsum : 0 < (logits.map e).sum :=
    List.sum_pos _ (fun z hz => by
      obtain ⟨w, _, rfl⟩ := List.mem_map.mp hz
      exact he w) (by simpa using hne)
  have hdl : (logits.dropLast.map (fun x => e x / (logits.map e).sum)).length
      = encoder_masks.flatten.length := by
    rw [List.length_map, List.length_dropLast, hlen']
    omega
  have hsm : softmaxRow e logits
      = logits.dropLast.map (fun x => e x / (logits.map e).sum)
        ++ [e (logits.getLast hne) / (logits.map e).sum] := by
    show logits.map (fun x => e x / (logits.map e).sum) = _
    set c := (logits.map e).sum with hc
    conv_lhs => rw [← List.dropLast_append_getLast hne]
    rw [List.map_append]
    simp
  have hzip : List.zipWith (· * ·) (softmaxRow e logits)
        (flat_masks_concat encoder_masks true)
      = List.zipWith (· * ·)
          (logits.dropLast.map (fun x => e x / (logits.map e).sum))
          encoder_masks.flatten
        ++ [e (logits.getLast hne) / (logits.map e).sum * 1] := by
    rw [hsm, hflat, List.zipWith_append _ _ _ _ _ hdl]
    simp
  have hS : 0 < (List.zipWith (· * ·) (softmaxRow e logits)
      (flat_masks_concat encoder_masks true)).sum := by
    rw [hzip, List.sum_append]
    have h1 : 0 ≤ (List.zipWith (· * ·)
        (logits.dropLast.map (fun x => e x / (logits.map e).sum))
        encoder_masks.flatten).sum := by
      refine List.sum_nonneg (zipWith_mul_nonneg _ _ ?_ ?_)
      · intro x hx
        obtain ⟨y, _, rfl⟩ := List.mem_map.mp hx
        exact le_of_lt (div_pos (he y) hexpsum)
      · intro x hx
        obtain ⟨m, hmem, hxm⟩ := List.mem_flatten.mp hx
        exact hm m hmem x hxm
    have h2 : 0 < e (logits.getLast hne) / (logits.map e).sum * 1 := by
      rw [mul_one]
      exact div_pos (he _) hexpsum
    simp only [List.sum_cons, List.sum_nil, add_zero]
    linarith
  have hepos : (0:ℚ) < EPS := by norm_num [EPS]
  have hsum : (renorm_softmax e (flat_masks_concat encoder_masks true)
      logits).sum
      = (List.zipWith (· * ·) (softmaxRow e logits)
          (flat_masks_concat encoder_masks true)).sum
        / ((List.zipWith (· * ·) (softmaxRow e logits)
            (flat_masks_concat encoder_masks true)).sum + EPS) :=
    sum_map_div _ _
  rw [hsum]
  exact div_pos hS (by linarith)

theorem c9_sentinel_slot_unmasked_witness :
    (flat_masks_concat [[0, 0]] true).getLast? = some 1
    ∧ 0 < (renorm_softmax oneExp (flat_masks_concat [[0, 0]] true)
            [0, 0, 0]).sum :=
  c9_sentinel_slot_unmasked oneExp [[0, 0]] [0, 0, 0]
    (fun x => by norm_num [oneExp])
    (by
      intro m hmem x hx
      simp only [List.mem_singleton] at hmem
      subst hmem
      rcases List.mem_cons.mp hx with h | h
      · simp [h]
      · simp only [List.mem_singleton] at h
        simp [h])
    rfl

/-- C7: each wrapped encoder's child context vector — and the whole
list of child attention loop states the hierarchical attention step
returns — is identical whether the sentinel mechanism is enabled or
disabled; the sentinel only enters the second-stage combination, which
is computed after the child attentions. -/
theorem c7_child_contexts_sentinel_independent (H : HierAttModel δ γ ω)
    [Inhabited γ] (s p i : δ) (ls : HierarchicalLoopState γ ω) (step : Nat) :
    hier_child_contexts { H with use_sentinels := true } s p i ls step
      = hier_child_contexts { H with use_sentinels := false } s p i ls step
    ∧ (hier_attention { H with use_sentinels := true } s p i ls
        step).2.child_loop_states
      = (hier_attention { H with use_sentinels := false } s p i ls
          step).2.child_loop_states :=
  ⟨rfl, rfl⟩

end NeuralMonkey
